import Mathlib

set_option maxRecDepth 8000

/-!
Verification of the genealogy program in `first_classes.py`.

Part 1 embeds the ancestry graph that the core algorithm reads: every
`Person` object carries an optional `father` and an optional `mother`
reference, and `cousin_grade` only ever follows those two pointers.  We
model a finite population as `Fin n` together with the two pointer maps.
The recursive collector `get_ascendants` and the grade loop of
`cousin_grade` are translated clause by clause; the unbounded Python
recursion is rendered with an explicit fuel parameter and we prove that
fuel `n` (the number of persons) is always enough.

Part 2 (further below) embeds the stateful object layer (`Adult`,
`Child`, `marriage`, `divorce`, `have_child_with`, `become_adult`) as
explicit state passing over a heap of person records, with Python
exceptions rendered as `Except.error`.
-/

/-- The sex tag of a person (`class Sex` in `first_classes.py`). -/
inductive Sex where
  | Male
  | Female
deriving DecidableEq

/-- The ancestry graph read by `cousin_grade`: a finite population of
persons, each with an optional father and an optional mother reference
(the `father` / `mother` attributes of `class Person`). -/
structure FamilyGraph where
  n : Nat
  father : Fin n → Option (Fin n)
  mother : Fin n → Option (Fin n)

/-- `a` is a recorded parent (father or mother) of `p`. -/
def isParentOf (g : FamilyGraph) (a p : Fin g.n) : Prop :=
  g.father p = some a ∨ g.mother p = some a

instance (g : FamilyGraph) (a p : Fin g.n) : Decidable (isParentOf g a p) := by
  unfold isParentOf; infer_instance

/-- `a` is an ancestor of `p`: reachable from `p` by one or more
father/mother steps (the glossary notion of "ancestor" in the design). -/
def isAncestor (g : FamilyGraph) (a p : Fin g.n) : Prop :=
  Relation.TransGen (fun y x => isParentOf g x y) p a

/-- The parent graph is acyclic: no person is their own ancestor. -/
def Acyclic (g : FamilyGraph) : Prop :=
  ∀ p : Fin g.n, ¬ isAncestor g p p

/-- Fuel-indexed translation of the inner helper `get_ascendants` of
`cousin_grade` (lines 40-54 of `first_classes.py`).  One unfolding
mirrors one pass of the Python `while` loop at `current_person = p`:
the father branch adds `father` plus a recursive call on it, the mother
branch likewise, and the final term is the rest of the loop, which
continues from `father or mother` (Python's `or`: the father if
present, otherwise the mother) and is exactly what `get_ascendants`
itself computes from that node.  The fuel stands for the unbounded
recursion depth of Python; stabilisation at fuel `g.n` is proved below. -/
def get_ascendants (g : FamilyGraph) : Nat → Fin g.n → Finset (Fin g.n)
  | 0, _ => ∅
  | fuel+1, p =>
      (match g.father p with
        | some f => insert f (get_ascendants g fuel f)
        | none => ∅) ∪
      ((match g.mother p with
        | some m => insert m (get_ascendants g fuel m)
        | none => ∅) ∪
      (match (g.father p).orElse (fun _ => g.mother p) with
        | some c => get_ascendants g fuel c
        | none => ∅))

/-- The ascendant set computed by the program: `get_ascendants` run with
fuel `g.n`, which is shown below to be past the stabilisation point. -/
def ascendants (g : FamilyGraph) (p : Fin g.n) : Finset (Fin g.n) :=
  get_ascendants g g.n p

/-- One pass of the grade loop body of `cousin_grade` (lines 66-73):
`new_common_ascendants` collects the father and the mother (when
recorded) of every member of the current set. -/
def parents_set (g : FamilyGraph) (s : Finset (Fin g.n)) : Finset (Fin g.n) :=
  s.biUnion (fun ascendant => (g.father ascendant).toFinset ∪ (g.mother ascendant).toFinset)

/-- Fuel-indexed translation of the grade loop of `cousin_grade`
(lines 63-75): while `common_ascendants` is non-empty, increment the
grade and replace the set by `parents_set` of it. -/
def climb (g : FamilyGraph) : Nat → Finset (Fin g.n) → Nat → Nat
  | 0, _, grade => grade
  | fuel+1, common_ascendants, grade =>
      if common_ascendants = ∅ then grade
      else climb g fuel (parents_set g common_ascendants) (grade + 1)

/-- Translation of `cousin_grade` (lines 26-75): intersect the two
ascendant sets, return `-1` when the intersection is empty, otherwise
run the grade loop starting from `grade = 0`.  Fuel `g.n + 1` for the
loop is shown below to be past its stabilisation point. -/
def cousin_grade (g : FamilyGraph) (person1 person2 : Fin g.n) : Int :=
  let ascendants1 := ascendants g person1
  let ascendants2 := ascendants g person2
  let common_ascendants := ascendants1 ∩ ascendants2
  if common_ascendants = ∅ then -1
  else (climb g (g.n + 1) common_ascendants 0 : Int)

/-- The demo pedigree of the script (lines 212-259), restricted to the
pointers that reach `cousin_grade`: 0 = adult1, 1 = adult2,
2 = parent1, 3 = parent2, 4 = parent3, 5 = parent4, 6 = parent5. -/
@[reducible] def demoGraph : FamilyGraph where
  n := 7
  father := ![some 2, some 5, some 6, none, none, some 6, none]
  mother := ![some 3, some 4, none, none, none, none, none]

example : cousin_grade demoGraph 0 1 = 1 := by decide

/-- Bounded ancestry: `ancWithin g k a p` holds when `a` is reachable
upward from `p` in at least one and at most `k` parent steps. -/
def ancWithin (g : FamilyGraph) : Nat → Fin g.n → Fin g.n → Prop
  | 0, _, _ => False
  | k+1, a, p => isParentOf g a p ∨ ∃ b, isParentOf g b p ∧ ancWithin g k a b

theorem get_ascendants_succ (g : FamilyGraph) (fuel : Nat) (p : Fin g.n) :
    get_ascendants g (fuel+1) p =
      (match g.father p with
        | some f => insert f (get_ascendants g fuel f)
        | none => ∅) ∪
      (match g.mother p with
        | some m => insert m (get_ascendants g fuel m)
        | none => ∅) := by
  ext x
  rcases hf : g.father p with _ | f <;> rcases hm : g.mother p with _ | m <;>
    simp [get_ascendants, hf, hm, Option.orElse] <;> tauto

theorem mem_get_ascendants (g : FamilyGraph) (fuel : Nat) (a p : Fin g.n) :
    a ∈ get_ascendants g fuel p ↔ ancWithin g fuel a p := by
  induction fuel generalizing p with
  | zero => simp [get_ascendants, ancWithin]
  | succ k ih =>
      rw [get_ascendants_succ]
      rcases hf : g.father p with _ | f <;> rcases hm : g.mother p with _ | m <;>
        simp [hf, hm, ancWithin, ih, isParentOf] <;> aesop

theorem ancWithin_succ (g : FamilyGraph) :
    ∀ k a p, ancWithin g k a p → ancWithin g (k+1) a p := by
  intro k
  induction k with
  | zero => intro a p h; simp [ancWithin] at h
  | succ k ih =>
      intro a p h
      rcases h with h | ⟨b, hb, hw⟩
      · exact Or.inl h
      · exact Or.inr ⟨b, hb, ih a b hw⟩

theorem ancWithin_mono (g : FamilyGraph) {j k : Nat} (hjk : j ≤ k) :
    ∀ a p, ancWithin g j a p → ancWithin g k a p := by
  induction k with
  | zero =>
      intro a p h
      have : j = 0 := Nat.le_zero.mp hjk
      subst this
      simp [ancWithin] at h
  | succ k ih =>
      intro a p h
      rcases Nat.lt_or_ge j (k+1) with hlt | hge
      · exact ancWithin_succ g k a p (ih (Nat.lt_succ_iff.mp hlt) a p h)
      · have : j = k + 1 := Nat.le_antisymm hjk hge
        subst this
        exact h

/-- A length-`k` upward chain of parent steps. -/
def isChain (g : FamilyGraph) (c : Nat → Fin g.n) (k : Nat) : Prop :=
  ∀ i, i < k → isParentOf g (c (i+1)) (c i)

theorem chain_of_ancWithin (g : FamilyGraph) :
    ∀ k a p, ancWithin g k a p →
      ∃ j, 1 ≤ j ∧ j ≤ k ∧ ∃ c : Nat → Fin g.n, c 0 = p ∧ c j = a ∧ isChain g c j := by
  intro k
  induction k with
  | zero => intro a p h; simp [ancWithin] at h
  | succ k ih =>
      intro a p h
      rcases h with h | ⟨b, hb, hw⟩
      · refine ⟨1, Nat.le_refl 1, by omega, fun i => if i = 0 then p else a, by simp, by simp, ?_⟩
        intro i hi
        have hi0 : i = 0 := by omega
        subst hi0
        simpa using h
      · obtain ⟨j, hj1, hjk, c, hc0, hcj, hc⟩ := ih a b hw
        refine ⟨j + 1, by omega, by omega, fun i => if i = 0 then p else c (i - 1), by simp, ?_, ?_⟩
        · simp [hcj]
        · intro i hi
          rcases Nat.eq_zero_or_pos i with hi0 | hip
          · subst hi0
            simpa [hc0] using hb
          · have h1 : ¬ (i = 0) := by omega
            have h2 : ¬ (i + 1 = 0) := by omega
            simp only [h1, h2, if_false]
            have h3 : i + 1 - 1 = (i - 1) + 1 := by omega
            rw [h3]
            exact hc (i - 1) (by omega)

theorem ancWithin_of_chain (g : FamilyGraph) :
    ∀ j c, isChain g c j → 1 ≤ j → ancWithin g j (c j) (c 0) := by
  intro j
  induction j with
  | zero => intro c _ h; omega
  | succ j ih =>
      intro c hc _
      rcases Nat.eq_zero_or_pos j with hj0 | hjp
      · subst hj0
        exact Or.inl (hc 0 (by omega))
      · have hshift : isChain g (fun i => c (i + 1)) j := by
          intro i hi
          exact hc (i + 1) (by omega)
        have := ih (fun i => c (i + 1)) hshift hjp
        exact Or.inr ⟨c 1, hc 0 (by omega), this⟩

theorem chain_shorten (g : FamilyGraph) :
    ∀ j, 1 ≤ j → ∀ c : Nat → Fin g.n, isChain g c j →
      ∃ j2, 1 ≤ j2 ∧ j2 ≤ g.n ∧ ∃ c2 : Nat → Fin g.n,
        c2 0 = c 0 ∧ c2 j2 = c j ∧ isChain g c2 j2 := by
  intro j
  induction j using Nat.strong_induction_on with
  | _ j ih =>
    intro hj c hc
    by_cases hle : j ≤ g.n
    · exact ⟨j, hj, hle, c, rfl, rfl, hc⟩
    · have hlt : g.n < j := by omega
      have hcard : Fintype.card (Fin g.n) < Fintype.card (Fin j) := by
        simpa using hlt
      obtain ⟨x, y, hxy, hcxy⟩ :=
        Fintype.exists_ne_map_eq_of_card_lt (fun i : Fin j => c i.val) hcard
      -- order the two repeated indices
      obtain ⟨i1, i2, hi12, hi2, heq⟩ :
          ∃ i1 i2, i1 < i2 ∧ i2 ≤ j - 1 ∧ c i1 = c i2 := by
        rcases Nat.lt_or_ge x.val y.val with hxylt | hxyge
        · exact ⟨x.val, y.val, hxylt, by omega, hcxy⟩
        · have : y.val < x.val := by
            rcases Nat.lt_or_ge y.val x.val with h2 | h2
            · exact h2
            · exact absurd (Fin.val_injective (by omega)) hxy
          exact ⟨y.val, x.val, this, by omega, hcxy.symm⟩
      -- cut the loop between i1 and i2 out of the chain
      obtain ⟨d, hd⟩ : ∃ d, i2 = i1 + d := ⟨i2 - i1, by omega⟩
      have hd1 : 1 ≤ d := by omega
      have hcut : isChain g (fun t => if t < i1 then c t else c (t + d)) (j - d) := by
        intro t ht
        by_cases h1 : t + 1 < i1
        · have h0 : t < i1 := by omega
          simp only [h0, h1, if_pos]
          exact hc t (by omega)
        · by_cases h0 : t < i1
          · -- here t + 1 = i1, and c (i1 + d) = c i2 = c i1
            have ht1 : t + 1 = i1 := by omega
            simp only [h0, h1, if_pos, if_neg (by omega : ¬ (t + 1 < i1))]
            have : c (t + 1 + d) = c (t + 1) := by
              rw [ht1, ← hd, ← heq]
            rw [this]
            exact hc t (by omega)
          · simp only [h0, if_neg (by omega : ¬ (t + 1 < i1)), if_neg h0]
            have : t + 1 + d = (t + d) + 1 := by omega
            rw [this]
            exact hc (t + d) (by omega)
      have hend : (fun t => if t < i1 then c t else c (t + d)) (j - d) = c j := by
        show (if j - d < i1 then c (j - d) else c (j - d + d)) = c j
        have h4 : ¬ (j - d < i1) := by omega
        have h5 : j - d + d = j := by omega
        rw [if_neg h4, h5]
      have hstart : (fun t => if t < i1 then c t else c (t + d)) 0 = c 0 := by
        show (if 0 < i1 then c 0 else c (0 + d)) = c 0
        by_cases h0 : 0 < i1
        · rw [if_pos h0]
        · have hi10 : i1 = 0 := by omega
          rw [if_neg h0]
          subst hi10
          simpa [hd] using heq.symm
      obtain ⟨j2, hj2a, hj2b, c2, e0, ej, hch⟩ :=
        ih (j - d) (by omega) (by omega) _ hcut
      exact ⟨j2, hj2a, hj2b, c2, e0.trans hstart, ej.trans hend, hch⟩

theorem ancWithin_bound (g : FamilyGraph) (k : Nat) (a p : Fin g.n)
    (h : ancWithin g k a p) : ancWithin g g.n a p := by
  obtain ⟨j, hj1, hjk, c, hc0, hcj, hc⟩ := chain_of_ancWithin g k a p h
  obtain ⟨j2, h1, h2, c2, e0, ej, hch⟩ := chain_shorten g j hj1 c hc
  have h3 := ancWithin_of_chain g j2 c2 hch h1
  rw [e0, ej, hc0, hcj] at h3
  exact ancWithin_mono g h2 a p h3

theorem ancWithin_tail (g : FamilyGraph) :
    ∀ k b p a, ancWithin g k b p → isParentOf g a b → ancWithin g (k+1) a p := by
  intro k
  induction k with
  | zero => intro b p a h; simp [ancWithin] at h
  | succ k ih =>
      intro b p a h hab
      rcases h with h | ⟨x, hx, hw⟩
      · exact Or.inr ⟨b, h, Or.inl hab⟩
      · exact Or.inr ⟨x, hx, ih b x a hw hab⟩

theorem isAncestor_iff_ancWithin (g : FamilyGraph) (a p : Fin g.n) :
    isAncestor g a p ↔ ∃ k, ancWithin g k a p := by
  constructor
  · intro h
    induction h with
    | single hstep => exact ⟨1, Or.inl hstep⟩
    | tail _ hstep ih =>
        obtain ⟨k, hk⟩ := ih
        exact ⟨k + 1, ancWithin_tail g k _ p _ hk hstep⟩
  · rintro ⟨k, h⟩
    induction k generalizing p with
    | zero => simp [ancWithin] at h
    | succ k ih =>
        rcases h with h | ⟨b, hb, hw⟩
        · exact Relation.TransGen.single h
        · exact Relation.TransGen.head hb (ih b hw)

theorem mem_ascendants (g : FamilyGraph) (a p : Fin g.n) :
    a ∈ ascendants g p ↔ isAncestor g a p := by
  rw [ascendants, mem_get_ascendants, isAncestor_iff_ancWithin]
  constructor
  · intro h
    exact ⟨g.n, h⟩
  · rintro ⟨k, h⟩
    exact ancWithin_bound g k a p h

theorem get_ascendants_no_parents (g : FamilyGraph) (p : Fin g.n)
    (hf : g.father p = none) (hm : g.mother p = none) :
    ∀ fuel, get_ascendants g fuel p = ∅ := by
  intro fuel
  cases fuel with
  | zero => rfl
  | succ f =>
      rw [get_ascendants_succ, hf, hm]
      simp

/-- A rank function decreasing along child-of edges certifies
acyclicity of a concrete pedigree. -/
theorem acyclic_of_rank (g : FamilyGraph) (rank : Fin g.n → Nat)
    (h : ∀ x p, isParentOf g x p → rank p < rank x) : Acyclic g := by
  intro p hp
  have mono : ∀ a q : Fin g.n, isAncestor g a q → rank q < rank a := by
    intro a q haq
    induction haq with
    | single hstep => exact h _ _ hstep
    | tail _ hstep ih => exact lt_trans ih (h _ _ hstep)
  exact absurd (mono p p hp) (lt_irrefl _)

/-- Exact-length reachability: `stepsTo g k b a` holds when `a` is
reachable from `b` by exactly `k` parent steps. -/
def stepsTo (g : FamilyGraph) : Nat → Fin g.n → Fin g.n → Prop
  | 0, b, a => b = a
  | k+1, b, a => ∃ x, isParentOf g x b ∧ stepsTo g k x a

theorem mem_parents_set (g : FamilyGraph) (s : Finset (Fin g.n)) (a : Fin g.n) :
    a ∈ parents_set g s ↔ ∃ b ∈ s, isParentOf g a b := by
  simp [parents_set, Finset.mem_biUnion, Option.mem_toFinset, Option.mem_def, isParentOf]

theorem mem_iterate_parents (g : FamilyGraph) (k : Nat) :
    ∀ (s : Finset (Fin g.n)) (a : Fin g.n),
      a ∈ (parents_set g)^[k] s ↔ ∃ b ∈ s, stepsTo g k b a := by
  induction k with
  | zero =>
      intro s a
      simp [stepsTo]
  | succ k ih =>
      intro s a
      rw [Function.iterate_succ_apply, ih]
      constructor
      · rintro ⟨b, hb, hst⟩
        rw [mem_parents_set] at hb
        obtain ⟨x, hx, hpb⟩ := hb
        exact ⟨x, hx, b, hpb, hst⟩
      · rintro ⟨b, hb, x, hpx, hst⟩
        exact ⟨x, (mem_parents_set g s x).mpr ⟨b, hb, hpx⟩, hst⟩

theorem chain_of_stepsTo (g : FamilyGraph) :
    ∀ k b a, stepsTo g k b a →
      ∃ c : Nat → Fin g.n, c 0 = b ∧ c k = a ∧ isChain g c k := by
  intro k
  induction k with
  | zero =>
      intro b a h
      exact ⟨fun _ => b, rfl, h, fun i hi => absurd hi (by omega)⟩
  | succ k ih =>
      intro b a h
      obtain ⟨x, hx, hst⟩ := h
      obtain ⟨c, hc0, hck, hch⟩ := ih x a hst
      refine ⟨fun i => if i = 0 then b else c (i - 1), by simp, by simp [hck], ?_⟩
      intro i hi
      rcases Nat.eq_zero_or_pos i with hi0 | hip
      · subst hi0
        simpa [hc0] using hx
      · have h1 : ¬ (i = 0) := by omega
        have h2 : ¬ (i + 1 = 0) := by omega
        simp only [h1, h2, if_false]
        have h3 : i + 1 - 1 = (i - 1) + 1 := by omega
        rw [h3]
        exact hch (i - 1) (by omega)

/-- On an acyclic graph, iterating the parent-frontier map `g.n` times
starting from any set empties it: chains of parent steps cannot be
longer than the population. -/
theorem iterate_parents_empty (g : FamilyGraph) (hacy : Acyclic g)
    (s : Finset (Fin g.n)) : (parents_set g)^[g.n] s = ∅ := by
  by_contra hne
  obtain ⟨a, ha⟩ := Finset.nonempty_iff_ne_empty.mpr hne
  rw [mem_iterate_parents] at ha
  obtain ⟨b, hb, hst⟩ := ha
  obtain ⟨c, hc0, hcn, hch⟩ := chain_of_stepsTo g g.n b a hst
  have hcard : Fintype.card (Fin g.n) < Fintype.card (Fin (g.n + 1)) := by simp
  obtain ⟨x, y, hxy, heq⟩ :=
    Fintype.exists_ne_map_eq_of_card_lt (fun i : Fin (g.n + 1) => c i.val) hcard
  obtain ⟨i1, i2, h12, hi2, he⟩ :
      ∃ i1 i2, i1 < i2 ∧ i2 ≤ g.n ∧ c i1 = c i2 := by
    rcases Nat.lt_or_ge x.val y.val with hlt | hge
    · exact ⟨x.val, y.val, hlt, by omega, heq⟩
    · have : y.val < x.val := by
        rcases Nat.lt_or_ge y.val x.val with h2 | h2
        · exact h2
        · exact absurd (Fin.val_injective (by omega)) hxy
      exact ⟨y.val, x.val, this, by omega, heq.symm⟩
  have hsub : isChain g (fun t => c (i1 + t)) (i2 - i1) := by
    intro t ht
    show isParentOf g (c (i1 + (t + 1))) (c (i1 + t))
    have h3 : i1 + (t + 1) = (i1 + t) + 1 := by omega
    rw [h3]
    exact hch (i1 + t) (by omega)
  have key := ancWithin_of_chain g (i2 - i1) (fun t => c (i1 + t)) hsub (by omega)
  have e1 : i1 + (i2 - i1) = i2 := by omega
  have key2 : ancWithin g (i2 - i1) (c i1) (c i1) := by
    have key3 : ancWithin g (i2 - i1) (c i2) (c i1) := by simpa [e1] using key
    rwa [← he] at key3
  exact hacy (c i1) ((isAncestor_iff_ancWithin g (c i1) (c i1)).mpr ⟨i2 - i1, key2⟩)

/-- The grade loop run with enough fuel counts exactly the number of
iterations until the frontier first becomes empty. -/
theorem climb_eq_of_stops (g : FamilyGraph) :
    ∀ (k : Nat) (s : Finset (Fin g.n)) (grade fuel : Nat),
      (parents_set g)^[k] s = ∅ →
      (∀ j, j < k → (parents_set g)^[j] s ≠ ∅) →
      k + 1 ≤ fuel →
      climb g fuel s grade = grade + k := by
  intro k
  induction k with
  | zero =>
      intro s grade fuel h0 _ hf
      have hs : s = ∅ := by simpa using h0
      cases fuel with
      | zero => omega
      | succ f => simp [climb, hs]
  | succ k ih =>
      intro s grade fuel hk hmin hf
      have hs : s ≠ ∅ := by simpa using hmin 0 (by omega)
      cases fuel with
      | zero => omega
      | succ f =>
          rw [show climb g (f + 1) s grade
                = climb g f (parents_set g s) (grade + 1) by simp [climb, hs]]
          rw [ih (parents_set g s) (grade + 1) f
                (by rwa [← Function.iterate_succ_apply])
                (fun j hj => by
                  have := hmin (j + 1) (by omega)
                  rwa [Function.iterate_succ_apply] at this)
                (by omega)]
          omega

/-- The grade loop stabilises: on an acyclic graph any fuel of at least
`g.n + 1` produces the same grade. -/
theorem climb_stable (g : FamilyGraph) (hacy : Acyclic g)
    (s : Finset (Fin g.n)) (grade fuel : Nat) (hf : g.n + 1 ≤ fuel) :
    climb g fuel s grade = climb g (g.n + 1) s grade := by
  have hex : ∃ k, (parents_set g)^[k] s = ∅ := ⟨g.n, iterate_parents_empty g hacy s⟩
  have hk : (parents_set g)^[Nat.find hex] s = ∅ := Nat.find_spec hex
  have hmin : ∀ j, j < Nat.find hex → (parents_set g)^[j] s ≠ ∅ :=
    fun j hj => Nat.find_min hex hj
  have hkn : Nat.find hex ≤ g.n := Nat.find_le (iterate_parents_empty g hacy s)
  rw [climb_eq_of_stops g (Nat.find hex) s grade fuel hk hmin (by omega),
      climb_eq_of_stops g (Nat.find hex) s grade (g.n + 1) hk hmin (by omega)]

theorem get_ascendants_stable (g : FamilyGraph) (fuel : Nat) (hf : g.n ≤ fuel)
    (p : Fin g.n) : get_ascendants g fuel p = ascendants g p := by
  ext a
  rw [mem_get_ascendants, ascendants, mem_get_ascendants]
  constructor
  · intro h
    exact ancWithin_bound g fuel a p h
  · intro h
    exact ancWithin_mono g hf a p h



/-- C1: when the two ascendant sets have a non-empty intersection,
`cousin_grade` returns the number of iterations of the frontier loop:
the unique `k` such that replacing the common set by the set of all
recorded fathers and mothers of its members `k` times first yields the
empty set. -/
theorem cousin_grade_counts_iterations (g : FamilyGraph) (hacy : Acyclic g)
    (a b : Fin g.n) (k : Nat)
    (hne : ascendants g a ∩ ascendants g b ≠ ∅)
    (hk : (parents_set g)^[k] (ascendants g a ∩ ascendants g b) = ∅)
    (hmin : ∀ j, j < k → (parents_set g)^[j] (ascendants g a ∩ ascendants g b) ≠ ∅) :
    cousin_grade g a b = k := by
  have hkn : k ≤ g.n := by
    by_contra hgt
    exact (hmin g.n (by omega)) (iterate_parents_empty g hacy _)
  simp only [cousin_grade, if_neg hne]
  rw [climb_eq_of_stops g k (ascendants g a ∩ ascendants g b) 0 (g.n + 1) hk hmin
      (by omega)]
  simp

/-- Witness pedigree for C1: two siblings with common parents 2 and 3,
and 2 has a further recorded father 4. -/
@[reducible] def withGrandpaGraph : FamilyGraph where
  n := 5
  father := ![some 2, some 2, some 4, none, none]
  mother := ![some 3, some 3, none, none, none]

theorem cousin_grade_counts_iterations_witness :
    cousin_grade withGrandpaGraph 0 1 = 2 :=
  cousin_grade_counts_iterations withGrandpaGraph
    (acyclic_of_rank withGrandpaGraph ![0, 0, 1, 1, 2] (by decide))
    0 1 2 (by decide) (by decide) (by decide)

/-- Full-sibling pedigree: persons 0 and 1 both have father 2 and
mother 3, and 2 and 3 have no recorded parents. -/
@[reducible] def siblingGraph : FamilyGraph where
  n := 4
  father := ![some 2, some 2, none, none]
  mother := ![some 3, some 3, none, none]

/-- C2 counterexample: for full siblings whose shared father and mother
have no recorded parents of their own, both parents are common
ascendants, yet `cousin_grade` returns 1 and not 0: the loop increments
the grade once while consuming the non-empty frontier of the two
parents. -/
theorem cousin_grade_siblings_not_zero :
    (2 : Fin 4) ∈ ascendants siblingGraph 0 ∩ ascendants siblingGraph 1 ∧
    (3 : Fin 4) ∈ ascendants siblingGraph 0 ∩ ascendants siblingGraph 1 ∧
    cousin_grade siblingGraph 0 1 ≠ 0 := by decide

/-- C2 amended: for two persons sharing father `fa` and mother `mo`,
the common ascendant set contains both parents; when `fa` and `mo` have
no recorded parents of their own, `cousin_grade` returns 1. -/
theorem cousin_grade_full_siblings (g : FamilyGraph) (p1 p2 fa mo : Fin g.n)
    (hf1 : g.father p1 = some fa) (hm1 : g.mother p1 = some mo)
    (hf2 : g.father p2 = some fa) (hm2 : g.mother p2 = some mo)
    (hff : g.father fa = none) (hfm : g.mother fa = none)
    (hmf : g.father mo = none) (hmm : g.mother mo = none) :
    fa ∈ ascendants g p1 ∩ ascendants g p2 ∧
    mo ∈ ascendants g p1 ∩ ascendants g p2 ∧
    cousin_grade g p1 p2 = 1 := by
  have hasc : ∀ p : Fin g.n, g.father p = some fa → g.mother p = some mo →
      ascendants g p = {fa, mo} := by
    intro p hf hm
    rw [← get_ascendants_stable g (g.n + 1) (by omega) p, get_ascendants_succ, hf, hm]
    simp [get_ascendants_no_parents g fa hff hfm, get_ascendants_no_parents g mo hmf hmm]
    ext x
    simp
  have h1 := hasc p1 hf1 hm1
  have h2 := hasc p2 hf2 hm2
  have hcommon : ascendants g p1 ∩ ascendants g p2 = {fa, mo} := by
    rw [h1, h2, Finset.inter_self]
  have hpar : parents_set g ({fa, mo} : Finset (Fin g.n)) = ∅ := by
    rw [Finset.eq_empty_iff_forall_not_mem]
    intro x hx
    rw [mem_parents_set] at hx
    obtain ⟨y, hy, hp⟩ := hx
    rcases Finset.mem_insert.mp hy with hyf | hym
    · subst hyf
      rcases hp with hp | hp
      · rw [hff] at hp; exact Option.noConfusion hp
      · rw [hfm] at hp; exact Option.noConfusion hp
    · have hym2 : y = mo := Finset.mem_singleton.mp hym
      subst hym2
      rcases hp with hp | hp
      · rw [hmf] at hp; exact Option.noConfusion hp
      · rw [hmm] at hp; exact Option.noConfusion hp
  have hne : ascendants g p1 ∩ ascendants g p2 ≠ ∅ := by
    rw [hcommon]
    intro h
    exact absurd (h ▸ Finset.mem_insert_self fa {mo}) (Finset.not_mem_empty fa)
  refine ⟨by rw [hcommon]; exact Finset.mem_insert_self fa {mo},
          by rw [hcommon]; simp, ?_⟩
  simp only [cousin_grade, if_neg hne]
  rw [hcommon]
  rw [climb_eq_of_stops g 1 {fa, mo} 0 (g.n + 1) (by simpa using hpar)
      (fun j hj => by
        have hj0 : j = 0 := by omega
        subst hj0
        simp only [Function.iterate_zero_apply]
        intro h
        exact absurd (h ▸ Finset.mem_insert_self fa {mo}) (Finset.not_mem_empty fa))
      (by have := p1.pos; omega)]
  simp

theorem cousin_grade_full_siblings_witness :
    (2 : Fin 4) ∈ ascendants siblingGraph 0 ∩ ascendants siblingGraph 1 ∧
    (3 : Fin 4) ∈ ascendants siblingGraph 0 ∩ ascendants siblingGraph 1 ∧
    cousin_grade siblingGraph 0 1 = 1 :=
  cousin_grade_full_siblings siblingGraph 0 1 2 3
    rfl rfl rfl rfl rfl rfl rfl rfl

/-- C3: `cousin_grade` returns -1 exactly when the two persons share no
ancestor (in particular whenever either of them has no ancestors at
all), and otherwise returns a non-negative integer. -/
theorem cousin_grade_neg_one_iff (g : FamilyGraph) (a b : Fin g.n) :
    (cousin_grade g a b = -1 ↔ ¬ ∃ c, isAncestor g c a ∧ isAncestor g c b) ∧
    ((¬ ∃ c, isAncestor g c a) ∨ (¬ ∃ c, isAncestor g c b) →
      cousin_grade g a b = -1) ∧
    ((∃ c, isAncestor g c a ∧ isAncestor g c b) → 0 ≤ cousin_grade g a b) := by
  have hiff : (ascendants g a ∩ ascendants g b = ∅) ↔
      ¬ ∃ c, isAncestor g c a ∧ isAncestor g c b := by
    rw [Finset.eq_empty_iff_forall_not_mem]
    simp [Finset.mem_inter, mem_ascendants]
  by_cases hc : ascendants g a ∩ ascendants g b = ∅
  · have hval : cousin_grade g a b = -1 := by simp [cousin_grade, hc]
    refine ⟨by rw [hval]; simpa using hiff.mp hc, fun _ => hval, ?_⟩
    intro hex
    exact absurd hex (hiff.mp hc)
  · have hval : cousin_grade g a b =
        (climb g (g.n + 1) (ascendants g a ∩ ascendants g b) 0 : Int) := by
      simp [cousin_grade, hc]
    refine ⟨?_, ?_, ?_⟩
    · rw [hval]
      constructor
      · intro h
        exact absurd h (by omega)
      · intro h
        exact absurd (hiff.mpr h) hc
    · intro h
      rcases h with h | h
      · exfalso
        apply hc
        rw [Finset.eq_empty_iff_forall_not_mem]
        intro c hcmem
        exact h ⟨c, (mem_ascendants g c a).mp (Finset.mem_inter.mp hcmem).1⟩
      · exfalso
        apply hc
        rw [Finset.eq_empty_iff_forall_not_mem]
        intro c hcmem
        exact h ⟨c, (mem_ascendants g c b).mp (Finset.mem_inter.mp hcmem).2⟩
    · intro _
      rw [hval]
      exact Int.natCast_nonneg _
  
theorem cousin_grade_neg_one_iff_witness :
    0 ≤ cousin_grade demoGraph 0 1 :=
  (cousin_grade_neg_one_iff demoGraph 0 1).2.2
    ⟨6, Relation.TransGen.head (Or.inl rfl) (Relation.TransGen.single (Or.inl rfl)),
        Relation.TransGen.head (Or.inl rfl) (Relation.TransGen.single (Or.inl rfl))⟩

/-- C4: `cousin_grade` is symmetric in its two arguments. -/
theorem cousin_grade_symm (g : FamilyGraph) (a b : Fin g.n) :
    cousin_grade g a b = cousin_grade g b a := by
  simp only [cousin_grade]
  rw [Finset.inter_comm (ascendants g a) (ascendants g b)]

/-- C5: on an acyclic graph the ascendant collector returns exactly the
set of nodes reachable upward through father/mother edges: membership
coincides with the ancestor relation, the set is empty when the node
has no recorded parents, it never contains the node itself, and (being
a `Finset`) it holds each ancestor exactly once even under diamond
patterns. -/
theorem ascendants_correct (g : FamilyGraph) (hacy : Acyclic g) (p : Fin g.n) :
    (∀ a, a ∈ ascendants g p ↔ isAncestor g a p) ∧
    (g.father p = none → g.mother p = none → ascendants g p = ∅) ∧
    p ∉ ascendants g p ∧
    (ascendants g p).val.Nodup := by
  refine ⟨fun a => mem_ascendants g a p, ?_, ?_, (ascendants g p).nodup⟩
  · intro hf hm
    exact get_ascendants_no_parents g p hf hm g.n
  · intro hp
    exact hacy p ((mem_ascendants g p p).mp hp)

/-- Diamond pedigree: node 0 has father 1 and mother 2, and both 1 and
2 have the same father 3, so 3 is an ancestor of 0 along two paths. -/
@[reducible] def diamondGraph : FamilyGraph where
  n := 4
  father := ![some 1, some 3, some 3, none]
  mother := ![some 2, none, none, none]

theorem ascendants_correct_witness :
    ((3 : Fin 4) ∈ ascendants diamondGraph 0 ↔ isAncestor diamondGraph 3 0) ∧
    (0 : Fin 4) ∉ ascendants diamondGraph 0 :=
  ⟨(ascendants_correct diamondGraph
      (acyclic_of_rank diamondGraph ![0, 1, 1, 2] (by decide)) 0).1 3,
   (ascendants_correct diamondGraph
      (acyclic_of_rank diamondGraph ![0, 1, 1, 2] (by decide)) 0).2.2.1⟩

/-- C6: on a finite acyclic graph both computations terminate with a
well-defined result: the fuelled renderings of the unbounded recursion
of `get_ascendants` and of the grade loop are independent of the fuel
once it reaches `g.n` (respectively `g.n + 1`), so the program's
recursion and loop stop and the result is deterministic. -/
theorem cousin_grade_terminates (g : FamilyGraph) (hacy : Acyclic g)
    (p : Fin g.n) (fuel1 : Nat) (h1 : g.n ≤ fuel1)
    (s : Finset (Fin g.n)) (grade fuel2 : Nat) (h2 : g.n + 1 ≤ fuel2) :
    get_ascendants g fuel1 p = ascendants g p ∧
    climb g fuel2 s grade = climb g (g.n + 1) s grade :=
  ⟨get_ascendants_stable g fuel1 h1 p, climb_stable g hacy s grade fuel2 h2⟩

theorem cousin_grade_terminates_witness :
    get_ascendants demoGraph 9 0 = ascendants demoGraph 0 ∧
    climb demoGraph 12 {0} 0 = climb demoGraph 8 {0} 0 :=
  cousin_grade_terminates demoGraph
    (acyclic_of_rank demoGraph ![0, 0, 1, 1, 1, 1, 2] (by decide))
    0 9 (by decide) {0} 0 12 (by decide)

/-!
Part 2: the stateful object layer of `first_classes.py`.  Objects live
on a heap modelled as a list; the id of an object is its index, and
object construction appends to the list.  Python's `ValueError` and
`AttributeError` are rendered as `Except.error` carrying the message
(respectively the exception kind); every method raises before its first
mutation, so an error leaves the state unchanged.
-/

/-- Role-specific attributes: `Adult.__init__` adds `job`, `married_to`
and `children_list`; `Child.__init__` adds `school` (which
`become_adult` later sets to `None`); a bare `Person` has neither. -/
inductive Role where
  | plain
  | adult (job : String) (married_to : Option Nat) (children_list : List Nat)
  | child (school : Option String)
deriving DecidableEq

/-- A person object: the attributes set by `Person.__init__` (name,
sex, and the optional mother/father references) plus the role-specific
attributes of the subclass. -/
structure Person where
  name : String
  sex : Sex
  father : Option Nat
  mother : Option Nat
  role : Role
deriving DecidableEq

/-- The object heap: the person with id `i` is the object at index
`i`; creating an object appends it. -/
abbrev State := List Person

/-- Read `married_to` of the adult at `i` (`none` when `i` is not an
adult, in which case Python would raise on the attribute read). -/
def marriedTo (s : State) (i : Nat) : Option Nat :=
  match s[i]? with
  | some o =>
      match o.role with
      | Role.adult _ m _ => m
      | _ => none
  | none => none

/-- Read `children_list` of the adult at `i`. -/
def childrenList (s : State) (i : Nat) : List Nat :=
  match s[i]? with
  | some o =>
      match o.role with
      | Role.adult _ _ k => k
      | _ => []
  | none => []

/-- Write `married_to` of the adult at `i` (no-op on anything else;
every write performed by the embedded methods targets an adult). -/
def setMarriedTo (s : State) (i : Nat) (m : Option Nat) : State :=
  match s[i]? with
  | some o =>
      match o.role with
      | Role.adult j _ k => s.set i { o with role := Role.adult j m k }
      | _ => s
  | none => s

/-- Write `children_list` of the adult at `i`. -/
def setChildrenList (s : State) (i : Nat) (k : List Nat) : State :=
  match s[i]? with
  | some o =>
      match o.role with
      | Role.adult j m _ => s.set i { o with role := Role.adult j m k }
      | _ => s
  | none => s

/-- Write `school` of the child at `i`. -/
def setSchool (s : State) (i : Nat) (sc : Option String) : State :=
  match s[i]? with
  | some o =>
      match o.role with
      | Role.child _ => s.set i { o with role := Role.child sc }
      | _ => s
  | none => s

/-- `i` is a valid id of an adult object. -/
def isAdult (s : State) (i : Nat) : Bool :=
  match s[i]? with
  | some o =>
      match o.role with
      | Role.adult _ _ _ => true
      | _ => false
  | none => false

/-- Translation of `Adult.marriage` (lines 129-146).  The guard
mirrors Python's short-circuit `or`: the receiver's `married_to` is
read first, and `other_person` is only inspected when the receiver is
unmarried.  Both `raise ValueError` statements precede the two
assignments, which run in source order: `self.married_to` first, then
`other_person.married_to`. -/
def marriage (s : State) (a b : Nat) : Except String State :=
  match s[a]? with
  | some oa =>
      match oa.role with
      | Role.adult _ ma _ =>
          if ma.isSome then
            Except.error "Both adults must be divorced to get married"
          else
            match s[b]? with
            | some ob =>
                match ob.role with
                | Role.adult _ mb _ =>
                    if mb.isSome then
                      Except.error "Both adults must be divorced to get married"
                    else if oa.sex = ob.sex then
                      Except.error "The marriage between two people with the same sex is not possible"
                    else
                      Except.ok (setMarriedTo (setMarriedTo s a (some b)) b (some a))
                | _ => Except.error "AttributeError"
            | none => Except.error "AttributeError"
      | _ => Except.error "AttributeError"
  | none => Except.error "AttributeError"

/-- Translation of `Adult.divorce` (lines 148-160): when the receiver's
`married_to` is exactly `other_person`, both `married_to` fields are
cleared; otherwise the call silently does nothing. -/
def divorce (s : State) (a b : Nat) : Except String State :=
  match s[a]? with
  | some oa =>
      match oa.role with
      | Role.adult _ ma _ =>
          if ma = some b then
            Except.ok (setMarriedTo (setMarriedTo s a none) b none)
          else
            Except.ok s
      | _ => Except.error "AttributeError"
  | none => Except.error "AttributeError"

/-- Translation of `Adult.have_child_with` (lines 104-127) together
with `Child.__init__` (lines 173-177).  The receiver is passed to
`Child` as the `mother` argument and `other_person` as the `father`
argument, so the child's `mother` is the receiver and its `father` is
`other_person`, purely by argument position.  The child is then
appended to the receiver's and to the other person's `children_list`,
in that order. -/
def have_child_with (s : State) (selfId otherId : Nat)
    (child_name : String) (sex_child : Sex) (school : String) :
    Except String (State × Nat) :=
  match s[selfId]? with
  | some oa =>
      match oa.role with
      | Role.adult _ _ _ =>
          match s[otherId]? with
          | some ob =>
              if oa.sex = ob.sex then
                Except.error "Reproduction is not possible between two people of the same sex"
              else
                match ob.role with
                | Role.adult _ _ _ =>
                    let child : Person :=
                      { name := child_name, sex := sex_child,
                        father := some otherId, mother := some selfId,
                        role := Role.child (some school) }
                    let cid := s.length
                    let s1 := s ++ [child]
                    let s2 := setChildrenList s1 selfId (childrenList s1 selfId ++ [cid])
                    let s3 := setChildrenList s2 otherId (childrenList s2 otherId ++ [cid])
                    Except.ok (s3, cid)
                | _ => Except.error "AttributeError"
          | none => Except.error "AttributeError"
      | _ => Except.error "AttributeError"
  | none => Except.error "AttributeError"

/-- Translation of `Child.become_adult` (lines 188-210): construct a
brand new `Adult` object via `Adult.__init__` — whose call to
`Person.__init__` leaves `father` and `mother` as `None` — look up the
child's position in each parent's `children_list` (Python's
`list.index`, a `ValueError` when absent), overwrite those positions
with the new adult, set the child's `school` to `None`, and return the
new object's id. -/
def become_adult (s : State) (c : Nat) (job : String) : Except String (State × Nat) :=
  match s[c]? with
  | some oc =>
      match oc.role with
      | Role.child _ =>
          match oc.mother, oc.father with
          | some mi, some fi =>
              let adult : Person :=
                { name := oc.name, sex := oc.sex, father := none, mother := none,
                  role := Role.adult job none [] }
              let aid := s.length
              let s1 := s ++ [adult]
              match (childrenList s1 mi).findIdx? (fun x => x == c),
                    (childrenList s1 fi).findIdx? (fun x => x == c) with
              | some im, some jf =>
                  let s2 := setChildrenList s1 mi ((childrenList s1 mi).set im aid)
                  let s3 := setChildrenList s2 fi ((childrenList s2 fi).set jf aid)
                  let s4 := setSchool s3 c none
                  Except.ok (s4, aid)
              | _, _ => Except.error "ValueError"
          | _, _ => Except.error "AttributeError"
      | _ => Except.error "AttributeError"
  | none => Except.error "AttributeError"

/-- A parent-link attachment as the program performs it: the plain
attribute assignment `person.father = other` (demo lines 251-257 and
`Child.__init__`).  The program runs no cycle check of any kind and
defines no `CycleError`: the assignment is unconditional. -/
def setFather (s : State) (i : Nat) (f : Nat) : State :=
  match s[i]? with
  | some o => s.set i { o with father := some f }
  | none => s

/-- A marriage or divorce call, for reasoning about call sequences. -/
inductive Op where
  | marriageOp (a b : Nat)
  | divorceOp (a b : Nat)

/-- Run one call; a raised exception propagates without mutating the
state (both methods raise before their first assignment). -/
def applyOp (s : State) (o : Op) : State :=
  match o with
  | Op.marriageOp a b =>
      match marriage s a b with
      | Except.ok s2 => s2
      | Except.error _ => s
  | Op.divorceOp a b =>
      match divorce s a b with
      | Except.ok s2 => s2
      | Except.error _ => s

/-- Run a sequence of marriage/divorce calls. -/
def runOps (s : State) (ops : List Op) : State :=
  ops.foldl applyOp s

/-- No person is recorded as married to themselves. -/
def NoSelfMarriage (s : State) : Prop :=
  ∀ i, marriedTo s i ≠ some i

theorem getElem?_setMarriedTo_ne (s : State) (i : Nat) (m : Option Nat) (j : Nat)
    (h : j ≠ i) : (setMarriedTo s i m)[j]? = s[j]? := by
  unfold setMarriedTo
  rcases hso : s[i]? with _ | o
  · simp [hso]
  · rcases hro : o.role with _ | ⟨j2, m2, k2⟩ | sc2 <;>
      simp [hso, hro, List.getElem?_set_ne (Ne.symm h)]

theorem setMarriedTo_no_op (s : State) (i : Nat) (m : Option Nat)
    (h : isAdult s i = false) : setMarriedTo s i m = s := by
  unfold setMarriedTo
  rcases hso : s[i]? with _ | o
  · simp [hso]
  · rcases hro : o.role with _ | ⟨j2, m2, k2⟩ | sc2
    · simp [hso, hro]
    · exfalso
      rw [isAdult] at h
      simp only [hso, hro] at h
      exact Bool.noConfusion h
    · simp [hso, hro]

theorem marriedTo_setMarriedTo_self (s : State) (i : Nat) (m : Option Nat)
    (o : Person) (hso : s[i]? = some o)
    (j0 : String) (m0 : Option Nat) (k0 : List Nat)
    (hro : o.role = Role.adult j0 m0 k0) :
    marriedTo (setMarriedTo s i m) i = m := by
  have hlen : i < s.length := (List.getElem?_eq_some_iff.mp hso).1
  unfold setMarriedTo
  simp only [hso, hro, marriedTo]
  rw [List.getElem?_set_self (by simpa using hlen)]

theorem marriedTo_setMarriedTo_ne (s : State) (i : Nat) (m : Option Nat) (j : Nat)
    (h : j ≠ i) : marriedTo (setMarriedTo s i m) j = marriedTo s j := by
  unfold marriedTo
  rw [getElem?_setMarriedTo_ne s i m j h]

/-- Successful `marriage` calls have a fixed shape: both ids are
unmarried adults with different sexes, the ids differ, and the result
sets the two `married_to` fields to each other. -/
theorem marriage_ok_shape (s : State) (a b : Nat) (s2 : State)
    (h : marriage s a b = Except.ok s2) :
    a ≠ b ∧
    isAdult s a = true ∧ isAdult s b = true ∧
    s2 = setMarriedTo (setMarriedTo s a (some b)) b (some a) := by
  unfold marriage at h
  rcases hsa : s[a]? with _ | oa
  · simp only [hsa] at h
    exact Except.noConfusion h
  · simp only [hsa] at h
    rcases hra : oa.role with _ | ⟨ja, ma, ka⟩ | sca
    · simp only [hra] at h
      exact Except.noConfusion h
    · simp only [hra] at h
      rcases hma : ma with _ | wa
      · simp only [hma, Option.isSome_none, Bool.false_eq_true, if_false] at h
        rcases hsb : s[b]? with _ | ob
        · simp only [hsb] at h
          exact Except.noConfusion h
        · simp only [hsb] at h
          rcases hrb : ob.role with _ | ⟨jb, mb, kb⟩ | scb
          · simp only [hrb] at h
            exact Except.noConfusion h
          · simp only [hrb] at h
            rcases hmb : mb with _ | wb
            · simp only [hmb, Option.isSome_none, Bool.false_eq_true, if_false] at h
              by_cases hsex : oa.sex = ob.sex
              · rw [if_pos hsex] at h
                exact Except.noConfusion h
              · rw [if_neg hsex] at h
                have hab : a ≠ b := by
                  intro hEq
                  subst hEq
                  rw [hsa] at hsb
                  exact hsex (by rw [Option.some_inj.mp hsb])
                refine ⟨hab, ?_, ?_, (Except.ok.inj h).symm⟩
                · rw [isAdult]
                  simp only [hsa, hra]
                · rw [isAdult]
                  simp only [hsb, hrb]
            · simp only [hmb, Option.isSome_some, if_true] at h
              exact Except.noConfusion h
          · simp only [hrb] at h
            exact Except.noConfusion h
      · simp only [hma, Option.isSome_some, if_true] at h
        exact Except.noConfusion h
    · simp only [hra] at h
      exact Except.noConfusion h

/-- Successful `divorce` calls either leave the state unchanged or
clear the two `married_to` fields. -/
theorem divorce_ok_shape (s : State) (a b : Nat) (s2 : State)
    (h : divorce s a b = Except.ok s2) :
    s2 = s ∨ s2 = setMarriedTo (setMarriedTo s a none) b none := by
  unfold divorce at h
  rcases hsa : s[a]? with _ | oa
  · simp only [hsa] at h
    exact Except.noConfusion h
  · simp only [hsa] at h
    rcases hra : oa.role with _ | ⟨ja, ma, ka⟩ | sca
    · simp only [hra] at h
      exact Except.noConfusion h
    · simp only [hra] at h
      by_cases hmb : ma = some b
      · rw [if_pos hmb] at h
        exact Or.inr (Except.ok.inj h).symm
      · rw [if_neg hmb] at h
        exact Or.inl (Except.ok.inj h).symm
    · simp only [hra] at h
      exact Except.noConfusion h

theorem noSelfMarriage_setMarriedTo (s : State) (i : Nat) (m : Option Nat)
    (hinv : NoSelfMarriage s) (hm : m ≠ some i) :
    NoSelfMarriage (setMarriedTo s i m) := by
  intro j
  by_cases hji : j = i
  · subst hji
    rcases hso : s[j]? with _ | o
    · rw [setMarriedTo_no_op s j m (by rw [isAdult]; simp only [hso])]
      exact hinv j
    · rcases hro : o.role with _ | ⟨j2, m2, k2⟩ | sc2
      · rw [setMarriedTo_no_op s j m (by rw [isAdult]; simp only [hso, hro])]
        exact hinv j
      · rw [marriedTo_setMarriedTo_self s j m o hso j2 m2 k2 hro]
        exact hm
      · rw [setMarriedTo_no_op s j m (by rw [isAdult]; simp only [hso, hro])]
        exact hinv j
  · rw [marriedTo_setMarriedTo_ne s i m j hji]
    exact hinv j

/-- One marriage or divorce call preserves the no-self-marriage
invariant. -/
theorem noSelfMarriage_applyOp (s : State) (o : Op) (hinv : NoSelfMarriage s) :
    NoSelfMarriage (applyOp s o) := by
  rcases o with ⟨a, b⟩ | ⟨a, b⟩
  · show NoSelfMarriage (match marriage s a b with
      | Except.ok s2 => s2
      | Except.error _ => s)
    rcases hm : marriage s a b with e | s2
    · exact hinv
    · obtain ⟨hab, _, _, hshape⟩ := marriage_ok_shape s a b s2 hm
      subst hshape
      exact noSelfMarriage_setMarriedTo _ b (some a)
        (noSelfMarriage_setMarriedTo s a (some b) hinv (by simpa using Ne.symm hab))
        (by simpa using hab)
  · show NoSelfMarriage (match divorce s a b with
      | Except.ok s2 => s2
      | Except.error _ => s)
    rcases hd : divorce s a b with e | s2
    · exact hinv
    · rcases divorce_ok_shape s a b s2 hd with hs | hs
      · subst hs
        exact hinv
      · subst hs
        exact noSelfMarriage_setMarriedTo _ b none
          (noSelfMarriage_setMarriedTo s a none hinv (by simp)) (by simp)

theorem noSelfMarriage_runOps (ops : List Op) :
    ∀ s : State, NoSelfMarriage s → NoSelfMarriage (runOps s ops) := by
  induction ops with
  | nil => intro s h; exact h
  | cons o t ih =>
      intro s h
      rw [runOps, List.foldl_cons]
      exact ih (applyOp s o) (noSelfMarriage_applyOp s o h)

theorem noSelfMarriage_of_forall_lt (s : State)
    (h : ∀ i, i < s.length → marriedTo s i ≠ some i) : NoSelfMarriage s := by
  intro i
  by_cases hi : i < s.length
  · exact h i hi
  · rw [marriedTo, List.getElem?_eq_none (by omega)]
    exact fun hcon => Option.noConfusion hcon

/-- C9: no bigamy and no self-marriage.  First part: `marriage` raises
the `ValueError` whenever either party is already married.  Second
part: no sequence of marriage and divorce calls can reach a state in
which a person is married to themselves, starting from any state
without self-marriages (as all freshly constructed states are, since
`Adult.__init__` sets `married_to = None`). -/
theorem marriage_no_bigamy_no_self :
    (∀ (s : State) (a b : Nat), isAdult s a = true → isAdult s b = true →
      (marriedTo s a ≠ none ∨ marriedTo s b ≠ none) →
      marriage s a b = Except.error "Both adults must be divorced to get married") ∧
    (∀ (s : State) (ops : List Op), NoSelfMarriage s →
      NoSelfMarriage (runOps s ops)) := by
  constructor
  · intro s a b ha hb hm
    rw [isAdult] at ha hb
    unfold marriage
    rcases hsa : s[a]? with _ | oa
    · simp only [hsa] at ha
      exact Bool.noConfusion ha
    · simp only [hsa] at ha ⊢
      rcases hra : oa.role with _ | ⟨ja, ma, ka⟩ | sca
      · simp only [hra] at ha
        exact Bool.noConfusion ha
      · simp only [hra]
        rcases hma : ma with _ | wa
        · have hmb2 : marriedTo s b ≠ none := by
            rcases hm with hm | hm
            · exfalso
              apply hm
              rw [marriedTo]
              simp only [hsa, hra, hma]
            · exact hm
          simp only [Option.isSome_none, Bool.false_eq_true, if_false]
          rcases hsb : s[b]? with _ | ob
          · simp only [hsb] at hb
            exact Bool.noConfusion hb
          · simp only [hsb] at hb ⊢
            rcases hrb : ob.role with _ | ⟨jb, mb, kb⟩ | scb
            · simp only [hrb] at hb
              exact Bool.noConfusion hb
            · simp only [hrb]
              rcases hmbv : mb with _ | wb
              · exfalso
                apply hmb2
                rw [marriedTo]
                simp only [hsb, hrb, hmbv]
              · simp only [Option.isSome_some, if_true]
            · simp only [hrb] at hb
              exact Bool.noConfusion hb
        · simp only [Option.isSome_some, if_true]
      · simp only [hra] at ha
        exact Bool.noConfusion ha
  · intro s ops h
    exact noSelfMarriage_runOps ops s h

/-- Ion and Elena, already married to each other. -/
@[reducible] def marriedCouple : State :=
  [{ name := "Ion", sex := Sex.Male, father := none, mother := none,
     role := Role.adult "engineer" (some 1) [] },
   { name := "Elena", sex := Sex.Female, father := none, mother := none,
     role := Role.adult "doctor" (some 0) [] }]

/-- Ion and Elena, both unmarried. -/
@[reducible] def freshCouple : State :=
  [{ name := "Ion", sex := Sex.Male, father := none, mother := none,
     role := Role.adult "engineer" none [] },
   { name := "Elena", sex := Sex.Female, father := none, mother := none,
     role := Role.adult "doctor" none [] }]

theorem marriage_no_bigamy_no_self_witness :
    marriage marriedCouple 0 1 =
      Except.error "Both adults must be divorced to get married" ∧
    NoSelfMarriage (runOps freshCouple
      [Op.marriageOp 0 1, Op.divorceOp 0 1, Op.marriageOp 0 0]) :=
  ⟨marriage_no_bigamy_no_self.1 marriedCouple 0 1 rfl rfl (Or.inl (by decide)),
   marriage_no_bigamy_no_self.2 freshCouple
     [Op.marriageOp 0 1, Op.divorceOp 0 1, Op.marriageOp 0 0]
     (noSelfMarriage_of_forall_lt freshCouple (by decide))⟩

/-- Person 1 was created with father 0, so 1 is a descendant of 0. -/
@[reducible] def cycleState : State :=
  [{ name := "A", sex := Sex.Male, father := none, mother := none,
     role := Role.plain },
   { name := "B", sex := Sex.Male, father := some 0, mother := none,
     role := Role.plain }]

/-- C7 counterexample: attaching the descendant 1 as the father of 0
succeeds and mutates the graph — afterwards 0's father is 1 while 1's
father is 0, a cycle — instead of being rejected with a `CycleError`
and leaving the graph unchanged (the code has no cycle check and
defines no `CycleError`). -/
theorem setFather_creates_cycle :
    ((setFather cycleState 0 1)[0]?).map Person.father = some (some 1) ∧
    ((setFather cycleState 0 1)[1]?).map Person.father = some (some 0) ∧
    setFather cycleState 0 1 ≠ cycleState := by decide

/-- C7 amended: attaching a parent link is an unconditional attribute
assignment: for every existing node it always succeeds and records the
new father — there is no cycle check and no failure path, even when the
new parent is the node's own descendant, and the graph is mutated. -/
theorem setFather_unconditional (s : State) (i f : Nat) (o : Person)
    (h : s[i]? = some o) :
    (setFather s i f)[i]? = some { o with father := some f } := by
  have hlen : i < s.length := (List.getElem?_eq_some_iff.mp h).1
  rw [setFather]
  simp only [h]
  rw [List.getElem?_set_self (by simpa using hlen)]

theorem setFather_unconditional_witness :
    (setFather cycleState 0 1)[0]? =
      some { name := "A", sex := Sex.Male, father := some 1, mother := none,
             role := Role.plain } :=
  setFather_unconditional cycleState 0 1
    { name := "A", sex := Sex.Male, father := none, mother := none,
      role := Role.plain } rfl

theorem getElem?_setChildrenList_ne (s : State) (i : Nat) (k : List Nat) (j : Nat)
    (h : j ≠ i) : (setChildrenList s i k)[j]? = s[j]? := by
  unfold setChildrenList
  rcases hso : s[i]? with _ | o
  · simp [hso]
  · rcases hro : o.role with _ | ⟨j2, m2, k2⟩ | sc2 <;>
      simp [hso, hro, List.getElem?_set_ne (Ne.symm h)]

theorem childrenList_setChildrenList_ne (s : State) (i : Nat) (k : List Nat) (j : Nat)
    (h : j ≠ i) : childrenList (setChildrenList s i k) j = childrenList s j := by
  unfold childrenList
  rw [getElem?_setChildrenList_ne s i k j h]

theorem childrenList_setChildrenList_self (s : State) (i : Nat) (k : List Nat)
    (o : Person) (hso : s[i]? = some o)
    (j0 : String) (m0 : Option Nat) (k0 : List Nat)
    (hro : o.role = Role.adult j0 m0 k0) :
    childrenList (setChildrenList s i k) i = k := by
  have hlen : i < s.length := (List.getElem?_eq_some_iff.mp hso).1
  unfold setChildrenList
  simp only [hso, hro, childrenList]
  rw [List.getElem?_set_self (by simpa using hlen)]

theorem getElem?_setChildrenList_self (s : State) (i : Nat) (k : List Nat)
    (o : Person) (hso : s[i]? = some o)
    (j0 : String) (m0 : Option Nat) (k0 : List Nat)
    (hro : o.role = Role.adult j0 m0 k0) :
    (setChildrenList s i k)[i]? = some { o with role := Role.adult j0 m0 k } := by
  have hlen : i < s.length := (List.getElem?_eq_some_iff.mp hso).1
  unfold setChildrenList
  simp only [hso, hro]
  rw [List.getElem?_set_self (by simpa using hlen)]

theorem getElem?_setSchool_ne (s : State) (i : Nat) (sc : Option String) (j : Nat)
    (h : j ≠ i) : (setSchool s i sc)[j]? = s[j]? := by
  unfold setSchool
  rcases hso : s[i]? with _ | o
  · simp [hso]
  · rcases hro : o.role with _ | ⟨j2, m2, k2⟩ | sc2 <;>
      simp [hso, hro, List.getElem?_set_ne (Ne.symm h)]

theorem childrenList_setSchool_ne (s : State) (i : Nat) (sc : Option String)
    (j : Nat) (h : j ≠ i) :
    childrenList (setSchool s i sc) j = childrenList s j := by
  unfold childrenList
  rw [getElem?_setSchool_ne s i sc j h]

theorem getElem?_setSchool_self (s : State) (i : Nat) (sc : Option String)
    (o : Person) (hso : s[i]? = some o)
    (sc0 : Option String) (hro : o.role = Role.child sc0) :
    (setSchool s i sc)[i]? = some { o with role := Role.child sc } := by
  have hlen : i < s.length := (List.getElem?_eq_some_iff.mp hso).1
  unfold setSchool
  simp only [hso, hro]
  rw [List.getElem?_set_self (by simpa using hlen)]

/-- Elena (0) and Ion (1) are the parents of child Alex (2), recorded
in both children lists. -/
@[reducible] def famState : State :=
  [{ name := "Elena", sex := Sex.Female, father := none, mother := none,
     role := Role.adult "doctor" none [2] },
   { name := "Ion", sex := Sex.Male, father := none, mother := none,
     role := Role.adult "engineer" none [2] },
   { name := "Alex", sex := Sex.Male, father := some 1, mother := some 0,
     role := Role.child (some "Primary School") }]

/-- C8 counterexample: `become_adult` on child 2 — whose father is 1
and mother is 0 — returns the brand new object with id 3 whose `father`
and `mother` are `None`: the transition creates a new node identity and
the resulting person does not have the child's parent references; both
parents' children lists now hold the new id 3 in place of the child. -/
theorem become_adult_loses_parents :
    (become_adult famState 2 "dancer").toOption.map
        (fun r => (r.2, (r.1[r.2]?).map Person.father, (r.1[r.2]?).map Person.mother))
      = some (3, some none, some none) ∧
    famState[2]?.map Person.father = some (some 1) ∧
    (become_adult famState 2 "dancer").toOption.map
        (fun r => (childrenList r.1 0, childrenList r.1 1))
      = some ([3], [3]) := by decide

/-- C8 amended: `become_adult` constructs a brand new `Adult` object
under a fresh id (the old heap length, distinct from the child's id)
whose `father` and `mother` are `None` — the child's parent links are
not carried over to the returned object — while the original child
object keeps its parent references and only has its `school` cleared,
and the child is replaced by the new adult at the position found by
`list.index` in both parents' children lists. -/
theorem become_adult_new_object (s : State) (c mi fi : Nat) (oc om ofa : Person)
    (sc : Option String) (job : String)
    (jm : String) (mm : Option Nat) (km : List Nat)
    (jf : String) (mf : Option Nat) (kf : List Nat)
    (hc : s[c]? = some oc) (hrc : oc.role = Role.child sc)
    (hmi : oc.mother = some mi) (hfi : oc.father = some fi)
    (hom : s[mi]? = some om) (hrm : om.role = Role.adult jm mm km)
    (hof : s[fi]? = some ofa) (hrf : ofa.role = Role.adult jf mf kf)
    (hcm : c ∈ km) (hcf : c ∈ kf) (hmf : mi ≠ fi) :
    ∃ s4, become_adult s c job = Except.ok (s4, s.length) ∧
      s.length ≠ c ∧
      s4[s.length]? = some { name := oc.name, sex := oc.sex, father := none,
                             mother := none, role := Role.adult job none [] } ∧
      s4[c]? = some { oc with role := Role.child none } ∧
      childrenList s4 mi = km.set (km.findIdx (fun x => x == c)) s.length ∧
      childrenList s4 fi = kf.set (kf.findIdx (fun x => x == c)) s.length := by
  have hlc : c < s.length := (List.getElem?_eq_some_iff.mp hc).1
  have hlm : mi < s.length := (List.getElem?_eq_some_iff.mp hom).1
  have hlf : fi < s.length := (List.getElem?_eq_some_iff.mp hof).1
  have hmic : mi ≠ c := by
    intro he
    subst he
    rw [hc] at hom
    have h2 : oc = om := Option.some_inj.mp hom
    rw [← h2, hrc] at hrm
    exact Role.noConfusion hrm
  have hfic : fi ≠ c := by
    intro he
    subst he
    rw [hc] at hof
    have h2 : oc = ofa := Option.some_inj.mp hof
    rw [← h2, hrc] at hrf
    exact Role.noConfusion hrf
  have hclm : childrenList
      (s ++ [{ name := oc.name, sex := oc.sex, father := none, mother := none,
               role := Role.adult job none [] }]) mi = km := by
    unfold childrenList
    rw [List.getElem?_append_left hlm]
    simp only [hom, hrm]
  have hclf : childrenList
      (s ++ [{ name := oc.name, sex := oc.sex, father := none, mother := none,
               role := Role.adult job none [] }]) fi = kf := by
    unfold childrenList
    rw [List.getElem?_append_left hlf]
    simp only [hof, hrf]
  have hfm : (km.findIdx? (fun x => x == c)) = some (km.findIdx (fun x => x == c)) :=
    List.findIdx?_eq_some_of_exists ⟨c, hcm, by simp⟩
  have hff : (kf.findIdx? (fun x => x == c)) = some (kf.findIdx (fun x => x == c)) :=
    List.findIdx?_eq_some_of_exists ⟨c, hcf, by simp⟩
  have hs1m :
      (s ++ [{ name := oc.name, sex := oc.sex, father := none, mother := none,
               role := Role.adult job none [] }])[mi]?
        = some om := by
    rw [List.getElem?_append_left hlm]
    exact hom
  have hs2f :
      (setChildrenList
        (s ++ [{ name := oc.name, sex := oc.sex, father := none, mother := none,
                 role := Role.adult job none [] }])
        mi (km.set (List.findIdx (fun x => x == c) km) s.length))[fi]?
        = some ofa := by
    rw [getElem?_setChildrenList_ne _ mi _ fi (Ne.symm hmf),
        List.getElem?_append_left hlf]
    exact hof
  unfold become_adult
  simp only [hc, hrc, hmi, hfi, hclm, hclf, hfm, hff]
  refine ⟨_, rfl, by omega, ?_, ?_, ?_, ?_⟩
  · rw [getElem?_setSchool_ne _ c none s.length (by omega),
        getElem?_setChildrenList_ne _ fi _ s.length (by omega),
        getElem?_setChildrenList_ne _ mi _ s.length (by omega)]
    exact List.getElem?_concat_length s _
  · rw [← hmi, ← hfi]
    refine getElem?_setSchool_self _ c none oc ?_ sc hrc
    rw [getElem?_setChildrenList_ne _ fi _ c (Ne.symm hfic),
        getElem?_setChildrenList_ne _ mi _ c (Ne.symm hmic),
        List.getElem?_append_left hlc]
    exact hc
  · rw [childrenList_setSchool_ne _ c none mi hmic,
        childrenList_setChildrenList_ne _ fi _ mi hmf,
        childrenList_setChildrenList_self _ mi _ om hs1m jm mm km hrm]
  · rw [childrenList_setSchool_ne _ c none fi hfic,
        childrenList_setChildrenList_self _ fi _ ofa hs2f jf mf kf hrf,
        childrenList_setChildrenList_ne _ mi _ fi (Ne.symm hmf), hclf]

theorem become_adult_new_object_witness :
    ∃ s4, become_adult famState 2 "dancer" = Except.ok (s4, 3) ∧
      (3 : Nat) ≠ 2 ∧
      s4[3]? = some { name := "Alex", sex := Sex.Male, father := none,
                      mother := none, role := Role.adult "dancer" none [] } ∧
      s4[2]? = some { name := "Alex", sex := Sex.Male, father := some 1,
                      mother := some 0, role := Role.child none } ∧
      childrenList s4 0 = [3] ∧
      childrenList s4 1 = [3] :=
  become_adult_new_object famState 2 0 1
    { name := "Alex", sex := Sex.Male, father := some 1, mother := some 0,
      role := Role.child (some "Primary School") }
    { name := "Elena", sex := Sex.Female, father := none, mother := none,
      role := Role.adult "doctor" none [2] }
    { name := "Ion", sex := Sex.Male, father := none, mother := none,
      role := Role.adult "engineer" none [2] }
    (some "Primary School") "dancer" "doctor" none [2] "engineer" none [2]
    rfl rfl rfl rfl rfl rfl rfl rfl (by decide) (by decide) (by decide)

/-- C10: a successful `have_child_with` call creates a child whose
`mother` is the receiver and whose `father` is the other person — the
assignment is fixed by argument position and is independent of the sex
tags (the hypotheses only require the sexes to differ) — and the child
is appended to both adults' children lists. -/
theorem have_child_with_positional (s : State) (p q : Nat) (oa ob : Person)
    (ja : String) (ma : Option Nat) (ka : List Nat)
    (jb : String) (mb : Option Nat) (kb : List Nat)
    (child_name : String) (sex_child : Sex) (school : String)
    (hp : s[p]? = some oa) (hra : oa.role = Role.adult ja ma ka)
    (hq : s[q]? = some ob) (hrb : ob.role = Role.adult jb mb kb)
    (hsex : oa.sex ≠ ob.sex) :
    ∃ s3, have_child_with s p q child_name sex_child school =
        Except.ok (s3, s.length) ∧
      s3[s.length]? = some { name := child_name, sex := sex_child,
                             father := some q, mother := some p,
                             role := Role.child (some school) } ∧
      childrenList s3 p = ka ++ [s.length] ∧
      childrenList s3 q = kb ++ [s.length] := by
  have hlp : p < s.length := (List.getElem?_eq_some_iff.mp hp).1
  have hlq : q < s.length := (List.getElem?_eq_some_iff.mp hq).1
  have hpq : p ≠ q := by
    intro he
    subst he
    rw [hp] at hq
    exact hsex (by rw [Option.some_inj.mp hq])
  have hs1p :
      (s ++ [{ name := child_name, sex := sex_child, father := some q,
               mother := some p, role := Role.child (some school) }])[p]?
        = some oa := by
    rw [List.getElem?_append_left hlp]
    exact hp
  have hs1q :
      (s ++ [{ name := child_name, sex := sex_child, father := some q,
               mother := some p, role := Role.child (some school) }])[q]?
        = some ob := by
    rw [List.getElem?_append_left hlq]
    exact hq
  have hclp :
      childrenList
        (s ++ [{ name := child_name, sex := sex_child, father := some q,
                 mother := some p, role := Role.child (some school) }]) p
        = ka := by
    unfold childrenList
    rw [hs1p]
    simp only [hra]
  unfold have_child_with
  simp only [hp, hra, hq, if_neg hsex, hrb]
  refine ⟨_, rfl, ?_, ?_, ?_⟩
  · rw [getElem?_setChildrenList_ne _ q _ s.length (by omega),
        getElem?_setChildrenList_ne _ p _ s.length (by omega)]
    exact List.getElem?_concat_length s _
  · rw [childrenList_setChildrenList_ne _ q _ p hpq]
    rw [childrenList_setChildrenList_self _ p _ oa hs1p ja ma ka hra]
    rw [hclp]
  · rw [childrenList_setChildrenList_self _ q _ ob
        (by
          rw [getElem?_setChildrenList_ne _ p _ q (Ne.symm hpq)]
          exact hs1q)
        jb mb kb hrb]
    rw [childrenList_setChildrenList_ne _ p _ q (Ne.symm hpq)]
    unfold childrenList
    rw [hs1q]
    simp only [hrb]

theorem have_child_with_positional_witness :
    ∃ s3, have_child_with freshCouple 0 1 "Alex" Sex.Male "Primary School" =
        Except.ok (s3, 2) ∧
      s3[2]? = some { name := "Alex", sex := Sex.Male, father := some 1,
                      mother := some 0, role := Role.child (some "Primary School") } ∧
      childrenList s3 0 = [] ++ [2] ∧
      childrenList s3 1 = [] ++ [2] :=
  have_child_with_positional freshCouple 0 1
    { name := "Ion", sex := Sex.Male, father := none, mother := none,
      role := Role.adult "engineer" none [] }
    { name := "Elena", sex := Sex.Female, father := none, mother := none,
      role := Role.adult "doctor" none [] }
    "engineer" none [] "doctor" none [] "Alex" Sex.Male "Primary School"
    rfl rfl rfl rfl (by decide)
